import Mathlib

/-
Verification of the quantum RNG core (qrng_core.py).

The repository's own code (src/qrng_core.py) provides: the Von Neumann
extractor, Shannon entropy over an outcome-count map, Shannon entropy over a
bit sequence, the four generation methods (which build a circuit, run it on a
qiskit Aer backend, and package the result dictionary), and the benchmark
harness.  State-vector simulation and measurement sampling are delegated to
the external qiskit / qiskit_aer library and are not part of the repository;
those two components (spec sections 4.1 and 4.3) are modelled here from the
spec, with amplitudes represented exactly in the field extension ℚ[√2] so
that the idealized noiseless circuit semantics is computable.
-/

/-! ## Exact amplitudes: the ring ℚ[√2] -/

/-- An element `a + b·√2` of ℚ[√2], represented by the pair of rational
coordinates.  Used as the exact amplitude field for the Hadamard/CNOT
circuits, whose amplitudes all lie in ℚ[√2]. -/
structure Qsqrt2 where
  a : ℚ
  b : ℚ
deriving DecidableEq, Repr

instance : Zero Qsqrt2 := ⟨⟨0, 0⟩⟩

instance : One Qsqrt2 := ⟨⟨1, 0⟩⟩

instance : Add Qsqrt2 := ⟨fun x y => ⟨x.a + y.a, x.b + y.b⟩⟩

instance : Sub Qsqrt2 := ⟨fun x y => ⟨x.a - y.a, x.b - y.b⟩⟩

instance : Neg Qsqrt2 := ⟨fun x => ⟨-x.a, -x.b⟩⟩

instance : Mul Qsqrt2 := ⟨fun x y => ⟨x.a * y.a + 2 * x.b * y.b, x.a * y.b + x.b * y.a⟩⟩

/-- The amplitude `1/√2 = (1/2)·√2`, the Hadamard normalization factor. -/
def invSqrt2 : Qsqrt2 := ⟨0, 1/2⟩

/-- Interpretation of a ℚ[√2] element as a real number. -/
noncomputable def Qsqrt2.toReal (x : Qsqrt2) : ℝ := (x.a : ℝ) + (x.b : ℝ) * Real.sqrt 2

/-! ## Von Neumann extractor (src/qrng_core.py, `_von_neumann_extractor`) -/

/-- Shallow embedding of `QuantumRNG._von_neumann_extractor`: walk the input
list; for each element of length 2, emit "0" for "01" and "1" for "10";
everything else contributes nothing. -/
def von_neumann_extractor : List String → List String
  | [] => []
  | bp :: rest =>
      (if bp.length = 2 then
        if bp = "01" then ["0"]
        else if bp = "10" then ["1"]
        else []
      else []) ++ von_neumann_extractor rest

/-- The per-element contribution described by the specification: "01" emits
bit 0, "10" emits bit 1, and "00", "11" or any string of length ≠ 2 emits
nothing. -/
def vnContribution (s : String) : List String :=
  if s = "01" then ["0"] else if s = "10" then ["1"] else []

/-! ## State Vector Engine, modelled from the spec

The simulation itself is performed by qiskit / qiskit_aer and is not part of
this repository, so it is modelled here from the spec (sections 4.1-4.3). -/

/-- Modelled from the spec: a quantum state is a complex amplitude vector
indexed by basis outcomes (spec section 3, "Quantum State").  Basis outcomes
are lists of booleans (entry `q` is the value of qubit `q`); for the
Hadamard/CNOT circuits verified here all amplitudes lie in ℚ[√2], so the
amplitudes are represented exactly in `Qsqrt2`. -/
def QState : Type := List Bool → Qsqrt2

/-- Modelled from the spec: `initialize(n)` returns the state with amplitude
1 on the all-zero basis state and 0 elsewhere (spec section 4.1). -/
def initState (n : ℕ) : QState :=
  fun x => if x = List.replicate n false then 1 else 0

/-- Modelled from the spec: Hadamard on qubit `q` -- equal-superposition
mixing with sign flip on the |1⟩ component (spec section 4.1). -/
def hGate (q : ℕ) (v : QState) : QState := fun x =>
  if x.getD q false then
    invSqrt2 * (v (x.set q false) - v (x.set q true))
  else
    invSqrt2 * (v (x.set q false) + v (x.set q true))

/-- Modelled from the spec: controlled-NOT with control `c` and target `t` --
swap the amplitude pair for target-qubit values conditioned on the control
qubit being 1 (spec section 4.1). -/
def cxGate (c t : ℕ) (v : QState) : QState := fun x =>
  if x.getD c false then v (x.set t (!(x.getD t false))) else v x

/-- Modelled from the spec: Born-rule probability of sampling basis outcome
`x` from state `v` -- the squared magnitude of its (real) amplitude (spec
section 4.3). -/
noncomputable def bornProb (v : QState) (x : List Bool) : ℝ :=
  (v x).toReal ^ 2

/-- The qiskit measurement outcome string for basis outcome `x`: qubit 0 is
the rightmost character. -/
def outcomeString (x : List Bool) : String :=
  String.mk (x.reverse.map (fun b => if b then '1' else '0'))

/-- The Bell circuit of `bell_state_method`: Hadamard on qubit 0 then
CNOT(0,1) applied to the 2-qubit all-zero state. -/
def bell_circuit : QState := cxGate 0 1 (hGate 0 (initState 2))

/-- CNOT gates with control 0 and targets `1..k`, in increasing target order,
as in the loop of `ghz_state_method`. -/
def ghzEntangle : ℕ → QState → QState
  | 0, v => v
  | k+1, v => cxGate 0 (k+1) (ghzEntangle k v)

/-- The GHZ circuit of `ghz_state_method` on `n` qubits: Hadamard on qubit 0
then CNOT(0,i) for i = 1..n-1. -/
def ghz_circuit (n : ℕ) : QState := ghzEntangle (n - 1) (hGate 0 (initState n))

/-- The basis outcome with qubits `0..j-1` equal to 1 and the remaining
`n - j` qubits equal to 0. -/
def onesList (j n : ℕ) : List Bool :=
  List.replicate j true ++ List.replicate (n - j) false

/-! ## Shannon entropy (src/qrng_core.py, `_calculate_entropy` and
`_calculate_bit_entropy`) -/

/-- Base-2 logarithm over the reals (the `np.log2` of the source, read as
exact real arithmetic). -/
noncomputable def log2 (x : ℝ) : ℝ := Real.logb 2 x

/-- Shallow embedding of `QuantumRNG._calculate_entropy`: sum the counts of
the outcome-count map; return 0.0 if the total is 0, otherwise accumulate
`entropy -= p * log2 p` over the count values, skipping probabilities that
are not positive. -/
noncomputable def calculate_entropy (counts : List (String × ℕ)) : ℝ :=
  let total_shots := (counts.map Prod.snd).sum
  if total_shots = 0 then 0
  else
    (counts.map Prod.snd).foldl
      (fun (entropy : ℝ) (count : ℕ) =>
        if 0 < (count : ℝ) / (total_shots : ℝ) then
          entropy - ((count : ℝ) / (total_shots : ℝ))
            * log2 ((count : ℝ) / (total_shots : ℝ))
        else entropy) 0

/-- Shallow embedding of `QuantumRNG._calculate_bit_entropy`: return 0.0 on
an empty list; otherwise join all strings into one character stream, count
the '0' and '1' characters, take the stream length as the total, and
accumulate `entropy -= p * log2 p` over the two counts that are positive. -/
noncomputable def calculate_bit_entropy (bits : List String) : ℝ :=
  if bits = [] then 0
  else
    let bit_string := (bits.map String.data).flatten
    let c0 := bit_string.count '0'
    let c1 := bit_string.count '1'
    let total := bit_string.length
    if total = 0 then 0
    else
      [c0, c1].foldl
        (fun (entropy : ℝ) (count : ℕ) =>
          if 0 < count then
            entropy - ((count : ℝ) / (total : ℝ)) * log2 ((count : ℝ) / (total : ℝ))
          else entropy) 0

/-- The specification's Shannon-entropy formula: minus the sum of
`(c/total) * log2 (c/total)` over the positive counts `c` of the list. -/
noncomputable def shannonSum (total : ℕ) (vals : List ℕ) : ℝ :=
  -(((vals.filter (fun c => 0 < c)).map
      (fun (c : ℕ) => ((c : ℝ) / (total : ℝ)) * log2 ((c : ℝ) / (total : ℝ)))).sum)

/-! ## Generation methods (src/qrng_core.py) with the backend sampling
abstracted -/

/-- Increment the count of key `s` in an association-list outcome-count map,
inserting it with count 1 when absent (a Python dict used as a counter). -/
def incrCount : List (String × ℕ) → String → List (String × ℕ)
  | [], s => [(s, 1)]
  | (k, c) :: rest, s =>
      if k = s then (k, c + 1) :: rest else (k, c) :: incrCount rest s

/-- Modelled from the spec: the Measurement Sampler (delegated by the source
to the qiskit Aer backend, hence absent from the repository) draws `shots`
independent outcomes from the final distribution and accumulates an Outcome
Count Map (spec section 4.3).  `draw i` is the outcome string of shot `i`,
abstracting the backend's randomness source. -/
def sampleCounts (draw : ℕ → String) (shots : ℕ) : List (String × ℕ) :=
  (List.range shots).foldl (fun m i => incrCount m (draw i)) []

/-- The `random_bits` flattening loop shared by the generation methods:
every outcome string of the count map, repeated once per observed shot. -/
def flattenCounts (m : List (String × ℕ)) : List String :=
  (m.map (fun kc => List.replicate kc.2 kc.1)).flatten

/-- A Generation Result as assembled by the methods of `QuantumRNG`: the
fields mirror the keys of the returned Python dictionary, with `none` for a
key the method's dictionary does not contain (the `circuit`/`circuits` keys,
which carry no numeric data, are not modelled). -/
structure GenResult where
  method : String
  counts : Option (List (String × ℕ))
  random_bits : Option (List String)
  raw_bits : Option (List String)
  processed_bits : Option (List String)
  entropy : ℝ

/-- Shallow embedding of `QuantumRNG.hadamard_method` with the backend run
abstracted by `draw`; the model cannot raise, mirroring a run in which the
backend raises no exception, so it always returns `Except.ok`. -/
noncomputable def hadamard_method (draw : ℕ → String) (num_qubits shots : ℕ) :
    Except String GenResult :=
  let counts := sampleCounts draw shots
  Except.ok
    { method := "Hadamard"
      counts := some counts
      random_bits := some (flattenCounts counts)
      raw_bits := none
      processed_bits := none
      entropy := calculate_entropy counts }

/-- Shallow embedding of `QuantumRNG.bell_state_method` with the backend run
abstracted by `draw`. -/
noncomputable def bell_state_method (draw : ℕ → String) (shots : ℕ) :
    Except String GenResult :=
  let counts := sampleCounts draw shots
  Except.ok
    { method := "Bell_State"
      counts := some counts
      random_bits := some (flattenCounts counts)
      raw_bits := none
      processed_bits := none
      entropy := calculate_entropy counts }

/-- Shallow embedding of `QuantumRNG.ghz_state_method` with the backend run
abstracted by `draw`. -/
noncomputable def ghz_state_method (draw : ℕ → String) (num_qubits shots : ℕ) :
    Except String GenResult :=
  let counts := sampleCounts draw shots
  Except.ok
    { method := "GHZ_State"
      counts := some counts
      random_bits := some (flattenCounts counts)
      raw_bits := none
      processed_bits := none
      entropy := calculate_entropy counts }

/-- The `all_bits` accumulation of `QuantumRNG.nist_compliant_method`: four
independent 2-qubit sub-circuits, each run with `shots // 4` shots; `draw i`
abstracts the backend sampling of sub-circuit `i`. -/
def nistRawBits (draw : ℕ → ℕ → String) (shots : ℕ) : List String :=
  (List.range 4).foldl
    (fun acc i => acc ++ flattenCounts (sampleCounts (draw i) (shots / 4))) []

/-- Shallow embedding of `QuantumRNG.nist_compliant_method`: accumulate the
raw bits of the four sub-circuits, apply the Von Neumann extractor, and
report the bit-sequence entropy of the processed bits.  Note the raw
outcome strings go under the `raw_bits` key and the dictionary has no
`random_bits` key. -/
noncomputable def nist_compliant_method (draw : ℕ → ℕ → String) (shots : ℕ) :
    Except String GenResult :=
  let all_bits := nistRawBits draw shots
  let processed_bits := von_neumann_extractor all_bits
  Except.ok
    { method := "NIST_Compliant"
      counts := none
      random_bits := none
      raw_bits := some all_bits
      processed_bits := some processed_bits
      entropy := calculate_bit_entropy processed_bits }

/-! ## Benchmark harness (src/qrng_core.py, `benchmark_methods`) -/

/-- Per-method aggregate statistics of the benchmark loop. -/
structure BenchStats where
  avg_time : ℝ
  std_time : ℝ
  avg_entropy : ℝ
  std_entropy : ℝ
  min_time : ℝ
  max_time : ℝ
  successful_runs : ℕ

/-- `np.mean` of a list of reals. -/
noncomputable def listMean (l : List ℝ) : ℝ := l.sum / l.length

/-- `np.std` (population standard deviation) of a list of reals. -/
noncomputable def listStd (l : List ℝ) : ℝ :=
  Real.sqrt ((l.map (fun x => (x - listMean l) ^ 2)).sum / l.length)

/-- `np.min` of a list of reals (junk value 0 on the empty list, which the
harness never hits). -/
noncomputable def listMin (l : List ℝ) : ℝ := l.foldl min (l.headD 0)

/-- `np.max` of a list of reals (junk value 0 on the empty list, which the
harness never hits). -/
noncomputable def listMax (l : List ℝ) : ℝ := l.foldl max (l.headD 0)

/-- The fixed method list of `benchmark_methods`. -/
def benchmark_method_names : List String := ["hadamard", "bell", "ghz", "nist"]

/-- Shallow embedding of `QuantumRNG.benchmark_methods`.  The per-run
pipeline execution is abstracted by `runOutcome`: `runOutcome m i` is
`some (time, entropy)` when run `i` of method `m` returns a result without
an error key, and `none` when it returns an error result.  A method is added
to the output only when its list of successful run times is nonempty, with
`successful_runs` the number of successful runs. -/
noncomputable def benchmark_methods
    (runOutcome : String → ℕ → Option (ℝ × ℝ)) (runs : ℕ) :
    List (String × BenchStats) :=
  benchmark_method_names.filterMap (fun method =>
    let succ := (List.range runs).filterMap (runOutcome method)
    let times := succ.map Prod.fst
    let entropies := succ.map Prod.snd
    if times = [] then none
    else some (method,
      { avg_time := listMean times
        std_time := listStd times
        avg_entropy := listMean entropies
        std_entropy := listStd entropies
        min_time := listMin times
        max_time := listMax times
        successful_runs := times.length }))

/-! ## Theorems -/

theorem Qsqrt2.toReal_eq_zero_iff (x : Qsqrt2) : x.toReal = 0 ↔ x = 0 := by
  constructor
  · intro h
    by_cases hb : x.b = 0
    · rcases x with ⟨a, b⟩
      simp only [Qsqrt2.toReal] at h
      simp only at hb
      subst hb
      simp at h
      show Qsqrt2.mk a 0 = Qsqrt2.mk 0 0
      simp [h]
    · exfalso
      apply irrational_sqrt_two
      refine ⟨-x.a / x.b, ?_⟩
      have hb' : (x.b : ℝ) ≠ 0 := by exact_mod_cast hb
      push_cast
      field_simp
      unfold Qsqrt2.toReal at h
      linarith
  · intro h
    subst h
    show ((0 : ℚ) : ℝ) + ((0 : ℚ) : ℝ) * Real.sqrt 2 = 0
    simp

theorem bornProb_pos_iff (v : QState) (x : List Bool) :
    0 < bornProb v x ↔ v x ≠ 0 := by
  unfold bornProb
  constructor
  · intro h hz
    rw [hz] at h
    have : (0 : Qsqrt2).toReal = 0 := (Qsqrt2.toReal_eq_zero_iff 0).mpr rfl
    rw [this] at h
    simp at h
  · intro h
    have : (v x).toReal ≠ 0 := fun hz => h ((Qsqrt2.toReal_eq_zero_iff _).mp hz)
    exact pow_two_pos_of_ne_zero this

theorem onesList_zero (n : ℕ) : onesList 0 n = List.replicate n false := rfl

theorem onesList_succ (j m : ℕ) : onesList (j+1) m = true :: onesList j (m-1) := by
  unfold onesList
  rw [List.replicate_succ, List.cons_append]
  have h : m - (j+1) = m - 1 - j := by omega
  rw [h]

theorem Qsqrt2.zero_def : (0 : Qsqrt2) = ⟨0, 0⟩ := rfl

theorem Qsqrt2.one_def : (1 : Qsqrt2) = ⟨1, 0⟩ := rfl

theorem Qsqrt2.add_def (x y : Qsqrt2) : x + y = ⟨x.a + y.a, x.b + y.b⟩ := rfl

theorem Qsqrt2.sub_def (x y : Qsqrt2) : x - y = ⟨x.a - y.a, x.b - y.b⟩ := rfl

theorem Qsqrt2.mul_def (x y : Qsqrt2) :
    x * y = ⟨x.a * y.a + 2 * x.b * y.b, x.a * y.b + x.b * y.a⟩ := rfl

theorem invSqrt2_mul_one_sub_zero : invSqrt2 * (1 - 0) = invSqrt2 := by
  simp only [invSqrt2, Qsqrt2.one_def, Qsqrt2.zero_def, Qsqrt2.sub_def,
    Qsqrt2.mul_def, Qsqrt2.mk.injEq]
  norm_num

theorem invSqrt2_mul_zero_sub_zero : invSqrt2 * (0 - 0) = 0 := by
  simp only [invSqrt2, Qsqrt2.zero_def, Qsqrt2.sub_def, Qsqrt2.mul_def,
    Qsqrt2.mk.injEq]
  norm_num

theorem invSqrt2_mul_one_add_zero : invSqrt2 * (1 + 0) = invSqrt2 := by
  simp only [invSqrt2, Qsqrt2.one_def, Qsqrt2.zero_def, Qsqrt2.add_def,
    Qsqrt2.mul_def, Qsqrt2.mk.injEq]
  norm_num

theorem invSqrt2_mul_zero_add_zero : invSqrt2 * (0 + 0) = 0 := by
  simp only [invSqrt2, Qsqrt2.zero_def, Qsqrt2.add_def, Qsqrt2.mul_def,
    Qsqrt2.mk.injEq]
  norm_num

theorem invSqrt2_ne_zero : invSqrt2 ≠ 0 := by
  simp only [invSqrt2, Qsqrt2.zero_def, ne_eq, Qsqrt2.mk.injEq]
  norm_num

theorem set_flip_eq_onesList_iff :
    ∀ (k : ℕ) (xs : List Bool), k + 1 ≤ xs.length →
      (xs.set k (!(xs.getD k false)) = onesList k xs.length ↔
        xs = onesList (k+1) xs.length) := by
  intro k
  induction k with
  | zero =>
    intro xs hlen
    cases xs with
    | nil => simp at hlen
    | cons c t =>
      have e1 : onesList 0 ((c :: t).length) = false :: List.replicate t.length false := by
        rw [onesList_zero, List.length_cons, List.replicate_succ]
      have e2 : onesList 1 ((c :: t).length) = true :: List.replicate t.length false := by
        rw [onesList_succ, List.length_cons, Nat.add_sub_cancel, onesList_zero]
      rw [e1, e2]
      cases c with
      | false => simp
      | true => simp
  | succ k ih =>
    intro xs hlen
    cases xs with
    | nil => simp at hlen
    | cons c t =>
      have hlen' : k + 1 ≤ t.length := by
        simp only [List.length_cons] at hlen; omega
      have e1 : ((c :: t).set (k+1) (!((c :: t).getD (k+1) false)))
          = c :: t.set k (!(t.getD k false)) := by
        simp [List.getD_cons_succ, List.set_cons_succ]
      have e2 : onesList (k+1) ((c :: t).length) = true :: onesList k t.length := by
        rw [onesList_succ, List.length_cons, Nat.add_sub_cancel]
      have e3 : onesList (k+1+1) ((c :: t).length) = true :: onesList (k+1) t.length := by
        rw [onesList_succ, List.length_cons, Nat.add_sub_cancel]
      rw [e1, e2, e3, List.cons.injEq, List.cons.injEq, ih t hlen']

theorem hGate_zero_cons (v : QState) (b : Bool) (xs : List Bool) :
    hGate 0 v (b :: xs) =
      if b then invSqrt2 * (v (false :: xs) - v (true :: xs))
      else invSqrt2 * (v (false :: xs) + v (true :: xs)) := by
  cases b <;> simp [hGate]

theorem cxGate_zero_cons (t : ℕ) (v : QState) (b : Bool) (xs : List Bool) :
    cxGate 0 (t+1) v (b :: xs) =
      if b then v (b :: xs.set t (!(xs.getD t false))) else v (b :: xs) := by
  cases b <;> simp [cxGate, List.getD_cons_succ, List.set_cons_succ]

theorem ghz_inv (n : ℕ) :
    ∀ (k : ℕ), k + 1 ≤ n → ∀ x : List Bool, x.length = n →
      ghzEntangle k (hGate 0 (initState n)) x =
        if x = List.replicate n false then invSqrt2
        else if x = onesList (k+1) n then invSqrt2 else 0 := by
  intro k
  induction k with
  | zero =>
    intro hk x hx
    cases x with
    | nil => rw [List.length_nil] at hx; omega
    | cons b xs =>
      have hn : xs.length + 1 = n := by rw [List.length_cons] at hx; omega
      show hGate 0 (initState n) (b :: xs) = _
      rw [hGate_zero_cons]
      have hrepn : List.replicate n false = false :: List.replicate xs.length false := by
        rw [← hn, List.replicate_succ]
      have honesn : onesList (0+1) n = true :: List.replicate xs.length false := by
        rw [onesList_succ, ← hn, Nat.add_sub_cancel, onesList_zero]
      have hinit_t : initState n (true :: xs) = 0 := by
        unfold initState; rw [hrepn]; simp
      have hinit_f : initState n (false :: xs)
          = (if xs = List.replicate xs.length false then 1 else 0) := by
        unfold initState; rw [hrepn]; simp
      cases b with
      | true =>
        rw [if_pos rfl, hinit_t, hinit_f]
        by_cases hxs : xs = List.replicate xs.length false
        · rw [if_pos hxs, invSqrt2_mul_one_sub_zero]
          have h1 : (true :: xs) ≠ List.replicate n false := by rw [hrepn]; simp
          have h2 : (true :: xs) = onesList (0+1) n := by
            rw [honesn]; exact congrArg _ hxs
          rw [if_neg h1, if_pos h2]
        · rw [if_neg hxs, invSqrt2_mul_zero_sub_zero]
          have h1 : (true :: xs) ≠ List.replicate n false := by rw [hrepn]; simp
          have h2 : (true :: xs) ≠ onesList (0+1) n := by rw [honesn]; simp [hxs]
          rw [if_neg h1, if_neg h2]
      | false =>
        rw [if_neg (by simp), hinit_t, hinit_f]
        by_cases hxs : xs = List.replicate xs.length false
        · rw [if_pos hxs, invSqrt2_mul_one_add_zero]
          have h1 : (false :: xs) = List.replicate n false := by
            rw [hrepn]; exact congrArg _ hxs
          rw [if_pos h1]
        · rw [if_neg hxs, invSqrt2_mul_zero_add_zero]
          have h1 : (false :: xs) ≠ List.replicate n false := by rw [hrepn]; simp [hxs]
          have h2 : (false :: xs) ≠ onesList (0+1) n := by rw [honesn]; simp
          rw [if_neg h1, if_neg h2]
  | succ k ih =>
    intro hk x hx
    show cxGate 0 (k+1) (ghzEntangle k (hGate 0 (initState n))) x = _
    cases x with
    | nil => rw [List.length_nil] at hx; omega
    | cons b xs =>
      have hn : xs.length + 1 = n := by rw [List.length_cons] at hx; omega
      have hk' : k + 1 ≤ n := by omega
      rw [cxGate_zero_cons]
      have hrepn : List.replicate n false = false :: List.replicate xs.length false := by
        rw [← hn, List.replicate_succ]
      cases b with
      | false =>
        rw [if_neg (by simp), ih hk' (false :: xs) hx]
        have h1 : (false :: xs) ≠ onesList (k+1) n := by
          rw [onesList_succ]; simp
        have h2 : (false :: xs) ≠ onesList (k+1+1) n := by
          rw [onesList_succ]; simp
        by_cases hrep : (false :: xs) = List.replicate n false
        · rw [if_pos hrep, if_pos hrep]
        · rw [if_neg hrep, if_neg hrep, if_neg h1, if_neg h2]
      | true =>
        rw [if_pos rfl]
        have hylen : (true :: xs.set k (!(xs.getD k false))).length = n := by
          rw [List.length_cons, List.length_set]; omega
        rw [ih hk' _ hylen]
        have hy_ne_rep : (true :: xs.set k (!(xs.getD k false)))
            ≠ List.replicate n false := by
          rw [hrepn]; simp
        have hx_ne_rep : (true :: xs) ≠ List.replicate n false := by
          rw [hrepn]; simp
        have hiff : (true :: xs.set k (!(xs.getD k false))) = onesList (k+1) n ↔
            (true :: xs) = onesList (k+1+1) n := by
          have h := set_flip_eq_onesList_iff (k+1) (true :: xs)
            (by rw [List.length_cons]; omega)
          rw [List.length_cons, hn, List.getD_cons_succ, List.set_cons_succ] at h
          exact h
        rw [if_neg hy_ne_rep, if_neg hx_ne_rep, if_congr hiff rfl rfl]

theorem ghz_outcome_support (n : ℕ) (hn : 1 ≤ n) (x : List Bool)
    (hx : x.length = n) (hp : ghz_circuit n x ≠ 0) :
    x = List.replicate n false ∨ x = List.replicate n true := by
  have hk : (n - 1) + 1 ≤ n := by omega
  have h := ghz_inv n (n - 1) hk x hx
  rw [ghz_circuit, h] at hp
  have hones : onesList (n - 1 + 1) n = List.replicate n true := by
    unfold onesList
    have e : n - 1 + 1 = n := by omega
    rw [e, Nat.sub_self]
    simp
  rw [hones] at hp
  by_cases h1 : x = List.replicate n false
  · exact Or.inl h1
  · by_cases h2 : x = List.replicate n true
    · exact Or.inr h2
    · rw [if_neg h1, if_neg h2] at hp
      exact absurd rfl hp

theorem outcomeString_replicate (n : ℕ) (b : Bool) :
    outcomeString (List.replicate n b)
      = String.mk (List.replicate n (if b then '1' else '0')) := by
  unfold outcomeString
  rw [List.reverse_replicate, List.map_replicate]

theorem foldl_if_sub (p : ℕ → Prop) [DecidablePred p] (g : ℕ → ℝ) :
    ∀ (l : List ℕ) (acc : ℝ),
      l.foldl (fun e c => if p c then e - g c else e) acc
        = acc - ((l.filter (fun c => p c)).map g).sum := by
  intro l
  induction l with
  | nil => intro acc; simp
  | cons c rest ih =>
    intro acc
    rw [List.foldl_cons]
    by_cases hc : p c
    · rw [if_pos hc, ih, List.filter_cons_of_pos (by simpa using hc),
        List.map_cons, List.sum_cons]
      ring
    · rw [if_neg hc, ih, List.filter_cons_of_neg (by simpa using hc)]

theorem div_cast_pos_iff (c T : ℕ) (hT : T ≠ 0) :
    (0 < (c : ℝ) / (T : ℝ)) ↔ 0 < c := by
  have hTpos : (0 : ℝ) < (T : ℝ) := by
    exact_mod_cast Nat.pos_of_ne_zero hT
  constructor
  · intro h
    by_contra hc
    have hc0 : c = 0 := by omega
    subst hc0
    simp at h
  · intro h
    exact div_pos (by exact_mod_cast h) hTpos

theorem calculate_entropy_eq (counts : List (String × ℕ)) :
    calculate_entropy counts =
      if (counts.map Prod.snd).sum = 0 then 0
      else shannonSum (counts.map Prod.snd).sum (counts.map Prod.snd) := by
  unfold calculate_entropy shannonSum
  by_cases h : (counts.map Prod.snd).sum = 0
  · rw [if_pos h, if_pos h]
  · rw [if_neg h, if_neg h]
    rw [foldl_if_sub (fun c => 0 < (c : ℝ) / (((counts.map Prod.snd).sum : ℕ) : ℝ))
      (fun c => ((c : ℝ) / (((counts.map Prod.snd).sum : ℕ) : ℝ))
        * log2 ((c : ℝ) / (((counts.map Prod.snd).sum : ℕ) : ℝ)))]
    rw [zero_sub]
    have hfil : (counts.map Prod.snd).filter
          (fun (c : ℕ) => decide (0 < (c : ℝ) / (((counts.map Prod.snd).sum : ℕ) : ℝ)))
        = (counts.map Prod.snd).filter (fun (c : ℕ) => decide (0 < c)) := by
      apply List.filter_congr
      intro c _
      rw [decide_eq_decide]
      exact div_cast_pos_iff c _ h
    rw [hfil]

theorem list_sum_map_neg (l : List ℕ) (f : ℕ → ℝ) :
    (l.map (fun c => -(f c))).sum = -((l.map f).sum) := by
  induction l with
  | nil => simp
  | cons c rest ih => simp [ih]; ring

theorem list_sum_map_sub (l : List ℕ) (f g : ℕ → ℝ) :
    (l.map (fun c => f c - g c)).sum = (l.map f).sum - (l.map g).sum := by
  induction l with
  | nil => simp
  | cons c rest ih => simp [ih]; ring

theorem list_sum_map_div (l : List ℕ) (f : ℕ → ℝ) (d : ℝ) :
    (l.map (fun c => f c / d)).sum = (l.map f).sum / d := by
  induction l with
  | nil => simp
  | cons c rest ih => simp [ih]; ring

theorem list_sum_map_mul_right (l : List ℕ) (f : ℕ → ℝ) (a : ℝ) :
    (l.map (fun c => f c * a)).sum = (l.map f).sum * a := by
  induction l with
  | nil => simp
  | cons c rest ih => simp [ih]; ring

theorem list_sum_map_const_real (l : List ℕ) (a : ℝ) :
    (l.map (fun _ => a)).sum = (l.length : ℝ) * a := by
  induction l with
  | nil => simp
  | cons c rest ih => simp [ih]; ring

theorem sum_filter_pos_nat (l : List ℕ) :
    (l.filter (fun c => 0 < c)).sum = l.sum := by
  induction l with
  | nil => simp
  | cons c rest ih =>
    by_cases hc : 0 < c
    · rw [List.filter_cons_of_pos (by simpa using hc), List.sum_cons, List.sum_cons, ih]
    · have hc0 : c = 0 := by omega
      rw [List.filter_cons_of_neg (by simpa using hc), List.sum_cons, ih, hc0]
      omega

theorem shannonSum_nonneg (vals : List ℕ) : 0 ≤ shannonSum vals.sum vals := by
  unfold shannonSum
  rw [← list_sum_map_neg]
  apply List.sum_nonneg
  intro x hx
  rcases List.mem_map.mp hx with ⟨c, hc, rfl⟩
  rcases List.mem_filter.mp hc with ⟨hcv, hcpos⟩
  have hcpos' : 0 < c := by simpa using hcpos
  have hcle : c ≤ vals.sum := List.single_le_sum (fun x _ => Nat.zero_le x) c hcv
  have hTpos : (0 : ℝ) < (vals.sum : ℝ) := by
    exact_mod_cast Nat.lt_of_lt_of_le hcpos' hcle
  have hppos : 0 < (c : ℝ) / (vals.sum : ℝ) :=
    div_pos (by exact_mod_cast hcpos') hTpos
  have hple : (c : ℝ) / (vals.sum : ℝ) ≤ 1 :=
    (div_le_one hTpos).mpr (by exact_mod_cast hcle)
  have hlog : log2 ((c : ℝ) / (vals.sum : ℝ)) ≤ 0 :=
    Real.logb_nonpos (by norm_num) (le_of_lt hppos) hple
  rw [neg_nonneg]
  exact mul_nonpos_iff.mpr (Or.inl ⟨le_of_lt hppos, hlog⟩)

theorem shannonSum_le_log2_length (vals : List ℕ) (h : vals.sum ≠ 0) :
    shannonSum vals.sum vals
      ≤ log2 (((vals.filter (fun c => 0 < c)).length : ℝ)) := by
  have hPsum : (vals.filter (fun c => 0 < c)).sum = vals.sum := sum_filter_pos_nat vals
  have hTpos : (0 : ℝ) < (vals.sum : ℝ) := by
    exact_mod_cast Nat.pos_of_ne_zero h
  have hPne : vals.filter (fun c => 0 < c) ≠ [] := by
    intro hP
    rw [hP] at hPsum
    exact h hPsum.symm
  have hkpos : (0 : ℝ) < ((vals.filter (fun c => 0 < c)).length : ℝ) := by
    have := List.length_pos.mpr hPne
    exact_mod_cast this
  set P := vals.filter (fun c => 0 < c) with hP
  set T := vals.sum with hT
  set k : ℝ := (P.length : ℝ) with hkdef
  -- pointwise Gibbs bound
  have hpt : ∀ c ∈ P,
      -(((c : ℝ) / (T : ℝ)) * Real.log ((c : ℝ) / (T : ℝ)))
          - ((c : ℝ) / (T : ℝ)) * Real.log k
        ≤ 1 / k - (c : ℝ) / (T : ℝ) := by
    intro c hc
    have hcpos : (0 : ℝ) < (c : ℝ) := by
      have := (List.mem_filter.mp hc).2
      exact_mod_cast (by simpa using this : 0 < c)
    have hppos : 0 < (c : ℝ) / (T : ℝ) := div_pos hcpos hTpos
    have hz : (0 : ℝ) < 1 / (((c : ℝ) / (T : ℝ)) * k) := by positivity
    have hlog := Real.log_le_sub_one_of_pos hz
    have hexp : Real.log (1 / (((c : ℝ) / (T : ℝ)) * k))
        = -Real.log ((c : ℝ) / (T : ℝ)) - Real.log k := by
      rw [one_div, Real.log_inv, Real.log_mul (ne_of_gt hppos) (ne_of_gt hkpos)]
      ring
    rw [hexp] at hlog
    have hmul := mul_le_mul_of_nonneg_left hlog (le_of_lt hppos)
    have hrhs : ((c : ℝ) / (T : ℝ)) * (1 / (((c : ℝ) / (T : ℝ)) * k) - 1)
        = 1 / k - (c : ℝ) / (T : ℝ) := by
      field_simp
      ring
    have hlhs : -(((c : ℝ) / (T : ℝ)) * Real.log ((c : ℝ) / (T : ℝ)))
          - ((c : ℝ) / (T : ℝ)) * Real.log k
        = ((c : ℝ) / (T : ℝ))
            * (-Real.log ((c : ℝ) / (T : ℝ)) - Real.log k) := by
      ring
    rw [hlhs, ← hrhs]
    exact hmul
  have hsum := List.sum_le_sum hpt
  -- sum of probabilities is 1
  have hsp : (P.map (fun (c : ℕ) => (c : ℝ) / (T : ℝ))).sum = 1 := by
    rw [list_sum_map_div]
    have hcast : (P.map (fun (c : ℕ) => (c : ℝ))).sum = ((P.sum : ℕ) : ℝ) :=
      (Nat.cast_list_sum P).symm
    rw [hcast, hPsum]
    exact div_self (ne_of_gt hTpos)
  -- decompose both sides of the summed inequality
  rw [list_sum_map_sub, list_sum_map_sub, list_sum_map_mul_right,
    list_sum_map_const_real, hsp, one_mul] at hsum
  have hcore : (P.map (fun (c : ℕ) =>
      -(((c : ℝ) / (T : ℝ)) * Real.log ((c : ℝ) / (T : ℝ))))).sum ≤ Real.log k := by
    have hkk : k * (1 / k) = 1 := by
      field_simp
    rw [hkk] at hsum
    linarith
  -- convert to base-2 logarithms
  have hlog2pos : (0 : ℝ) < Real.log 2 := Real.log_pos (by norm_num)
  unfold shannonSum
  simp only [log2, Real.logb]
  have hmap : P.map (fun (c : ℕ) =>
        ((c : ℝ) / (T : ℝ)) * (Real.log ((c : ℝ) / (T : ℝ)) / Real.log 2))
      = P.map (fun (c : ℕ) =>
        (((c : ℝ) / (T : ℝ)) * Real.log ((c : ℝ) / (T : ℝ))) / Real.log 2) := by
    apply List.map_congr_left
    intro c _
    ring
  rw [hmap, list_sum_map_div, ← neg_div]
  rw [← list_sum_map_neg]
  exact (div_le_div_iff_of_pos_right hlog2pos).mpr hcore

theorem shannonSum_single (vals : List ℕ)
    (hk : (vals.filter (fun c => 0 < c)).length = 1) :
    shannonSum vals.sum vals = 0 := by
  obtain ⟨c, hc⟩ := List.length_eq_one.mp hk
  have hsum : c = vals.sum := by
    have h := sum_filter_pos_nat vals
    rw [hc] at h
    simpa using h
  have hcpos : 0 < c := by
    have hmem : c ∈ vals.filter (fun c => 0 < c) := by
      rw [hc]; exact List.mem_singleton.mpr rfl
    simpa using (List.mem_filter.mp hmem).2
  unfold shannonSum
  rw [hc, ← hsum]
  simp only [List.map_cons, List.map_nil, List.sum_cons, List.sum_nil]
  rw [div_self (Nat.cast_ne_zero.mpr hcpos.ne')]
  simp [log2]

theorem count_binary (l : List Char) (h : ∀ ch ∈ l, ch = '0' ∨ ch = '1') :
    l.count '0' + l.count '1' = l.length := by
  induction l with
  | nil => simp
  | cons c rest ih =>
    have hrest : ∀ ch ∈ rest, ch = '0' ∨ ch = '1' :=
      fun ch hch => h ch (List.mem_cons_of_mem c hch)
    have hc := h c (List.mem_cons_self c rest)
    rcases hc with rfl | rfl
    · rw [List.count_cons_self, List.count_cons_of_ne (by decide), List.length_cons,
        ← ih hrest]
      omega
    · rw [List.count_cons_self, List.count_cons_of_ne (by decide), List.length_cons,
        ← ih hrest]
      omega

theorem calculate_bit_entropy_eq (bits : List String)
    (h : ∀ s ∈ bits, ∀ ch ∈ s.data, ch = '0' ∨ ch = '1') :
    calculate_bit_entropy bits
      = shannonSum
          ([(bits.map String.data).flatten.count '0',
            (bits.map String.data).flatten.count '1'].sum)
          [(bits.map String.data).flatten.count '0',
            (bits.map String.data).flatten.count '1'] := by
  have hbin : ∀ ch ∈ (bits.map String.data).flatten, ch = '0' ∨ ch = '1' := by
    intro ch hch
    rcases List.mem_flatten.mp hch with ⟨l, hl, hchl⟩
    rcases List.mem_map.mp hl with ⟨s, hs, rfl⟩
    exact h s hs ch hchl
  have hcount := count_binary _ hbin
  unfold calculate_bit_entropy
  by_cases hb : bits = []
  · subst hb
    norm_num [shannonSum]
  · rw [if_neg hb]
    simp only []
    by_cases ht : (bits.map String.data).flatten.length = 0
    · rw [if_pos ht]
      have h0 : (bits.map String.data).flatten.count '0' = 0 := by omega
      have h1 : (bits.map String.data).flatten.count '1' = 0 := by omega
      rw [h0, h1]
      norm_num [shannonSum]
    · rw [if_neg ht]
      rw [foldl_if_sub (fun c => 0 < c)
        (fun (c : ℕ) => ((c : ℝ) / (((bits.map String.data).flatten.length : ℕ) : ℝ))
          * log2 ((c : ℝ) / (((bits.map String.data).flatten.length : ℕ) : ℝ)))]
      rw [zero_sub]
      unfold shannonSum
      have hsum : ([(bits.map String.data).flatten.count '0',
          (bits.map String.data).flatten.count '1'] : List ℕ).sum
          = (bits.map String.data).flatten.length := by
        simpa using hcount
      rw [hsum]

theorem entropy_entry_formula (counts : List (String × ℕ))
    (h : (counts.map Prod.snd).sum ≠ 0) :
    calculate_entropy counts =
      -(((counts.filter (fun e => 0 < e.2)).map
          (fun (e : String × ℕ) =>
            ((e.2 : ℝ) / (((counts.map Prod.snd).sum : ℕ) : ℝ))
              * log2 ((e.2 : ℝ) / (((counts.map Prod.snd).sum : ℕ) : ℝ)))).sum) := by
  rw [calculate_entropy_eq, if_neg h]
  unfold shannonSum
  rw [List.filter_map, List.map_map]
  rfl

theorem filter_pos_snd_length (counts : List (String × ℕ)) :
    ((counts.map Prod.snd).filter (fun c => 0 < c)).length
      = (counts.filter (fun e => 0 < e.2)).length := by
  rw [List.filter_map, List.length_map]
  rfl

theorem filter_pos_nil_of_sum_eq_zero (counts : List (String × ℕ))
    (h : (counts.map Prod.snd).sum = 0) :
    counts.filter (fun e => 0 < e.2) = [] := by
  rw [List.filter_eq_nil_iff]
  intro e he
  have : e.2 = 0 := by
    have hall := List.sum_eq_zero_iff.mp h
    exact hall e.2 (List.mem_map.mpr ⟨e, he, rfl⟩)
  simp [this]

theorem vn_eq_flatten (bits : List String) :
    von_neumann_extractor bits = (bits.map vnContribution).flatten := by
  induction bits with
  | nil => rfl
  | cons bp rest ih =>
    simp only [von_neumann_extractor, List.map_cons, List.flatten_cons, ih]
    congr 1
    unfold vnContribution
    by_cases h01 : bp = "01"
    · subst h01; decide
    · by_cases h10 : bp = "10"
      · subst h10; decide
      · by_cases hl : bp.length = 2
        · rw [if_neg h01, if_neg h10, if_pos hl]
        · rw [if_neg h01, if_neg h10, if_neg hl]

theorem vn_head_count0 (bp : String) :
    (List.count "0" (if bp.length = 2 then
        if bp = "01" then ["0"] else if bp = "10" then ["1"] else []
      else []))
      = (if bp == "01" then 1 else 0) := by
  by_cases h01 : bp = "01"
  · subst h01; decide
  · have hbeq : (bp == "01") = false := beq_eq_false_iff_ne.mpr h01
    rw [hbeq]
    by_cases h10 : bp = "10"
    · subst h10; decide
    · by_cases hl : bp.length = 2
      · rw [if_pos hl, if_neg h01, if_neg h10]; simp
      · rw [if_neg hl]; simp

theorem vn_head_count1 (bp : String) :
    (List.count "1" (if bp.length = 2 then
        if bp = "01" then ["0"] else if bp = "10" then ["1"] else []
      else []))
      = (if bp == "10" then 1 else 0) := by
  by_cases h10 : bp = "10"
  · subst h10; decide
  · have hbeq : (bp == "10") = false := beq_eq_false_iff_ne.mpr h10
    rw [hbeq]
    by_cases h01 : bp = "01"
    · subst h01; decide
    · by_cases hl : bp.length = 2
      · rw [if_pos hl, if_neg h01, if_neg h10]; simp
      · rw [if_neg hl]; simp

theorem vn_counts (bits : List String) :
    (von_neumann_extractor bits).count "0" = bits.count "01" ∧
    (von_neumann_extractor bits).count "1" = bits.count "10" := by
  induction bits with
  | nil => exact ⟨rfl, rfl⟩
  | cons bp rest ih =>
    simp only [von_neumann_extractor]
    rw [List.count_append, List.count_append, List.count_cons, List.count_cons,
      ih.1, ih.2, vn_head_count0, vn_head_count1]
    constructor <;> omega

theorem vn_drop_balanced (bits : List String) :
    von_neumann_extractor
        (bits.filter (fun s => !(s == "00" || s == "11")))
      = von_neumann_extractor bits := by
  induction bits with
  | nil => rfl
  | cons bp rest ih =>
    by_cases hdrop : bp = "00" ∨ bp = "11"
    · have hb : (!(bp == "00" || bp == "11")) = false := by
        rcases hdrop with rfl | rfl <;> decide
      rw [List.filter_cons_of_neg (by simp [hb])]
      have hcontrib :
          (if bp.length = 2 then
            if bp = "01" then ["0"]
            else if bp = "10" then ["1"]
            else []
          else []) = ([] : List String) := by
        rcases hdrop with rfl | rfl <;> decide
      rw [ih]
      conv_rhs => rw [von_neumann_extractor]
      rw [hcontrib, List.nil_append]
    · have hb : (!(bp == "00" || bp == "11")) = true := by
        push_neg at hdrop
        simp only [Bool.not_eq_true', Bool.or_eq_false_iff, beq_eq_false_iff_ne]
        exact hdrop
      rw [List.filter_cons_of_pos (by simp [hb])]
      show (if bp.length = 2 then
          if bp = "01" then ["0"] else if bp = "10" then ["1"] else []
        else []) ++ von_neumann_extractor
          (rest.filter (fun s => !(s == "00" || s == "11")))
        = von_neumann_extractor (bp :: rest)
      rw [ih]
      conv_rhs => rw [von_neumann_extractor]

theorem calculate_entropy_nil : calculate_entropy [] = 0 := by
  unfold calculate_entropy
  simp

theorem calculate_bit_entropy_nil : calculate_bit_entropy [] = 0 := by
  unfold calculate_bit_entropy
  simp

theorem shannonSum_of_sum_eq_zero (vals : List ℕ) (h : vals.sum = 0) :
    shannonSum vals.sum vals = 0 := by
  unfold shannonSum
  have hfil : vals.filter (fun c => 0 < c) = [] := by
    rw [List.filter_eq_nil_iff]
    intro c hc
    have hc0 := List.sum_eq_zero_iff.mp h c hc
    simp [hc0]
  rw [hfil]
  simp

theorem shannonSum_pair_le_one (a b : ℕ) :
    shannonSum ([a, b] : List ℕ).sum [a, b] ≤ 1 := by
  by_cases h0 : ([a, b] : List ℕ).sum = 0
  · rw [shannonSum_of_sum_eq_zero _ h0]
    norm_num
  · have hle := shannonSum_le_log2_length [a, b] h0
    have hlen : (([a, b] : List ℕ).filter (fun c => 0 < c)).length ≤ 2 := by
      simpa using List.length_filter_le (fun c => decide (0 < c)) [a, b]
    have hcase : (([a, b] : List ℕ).filter (fun c => 0 < c)).length = 0 ∨
        (([a, b] : List ℕ).filter (fun c => 0 < c)).length = 1 ∨
        (([a, b] : List ℕ).filter (fun c => 0 < c)).length = 2 := by omega
    have hklog : log2 (((([a, b] : List ℕ).filter (fun c => 0 < c)).length : ℝ)) ≤ 1 := by
      rcases hcase with hk | hk | hk <;> rw [hk]
      · norm_num [log2]
      · norm_num [log2]
      · norm_num [log2, Real.logb_self_eq_one]
    exact le_trans hle hklog

theorem ghz3_ttt : ghz_circuit 3 [true, true, true] = invSqrt2 := by
  have h := ghz_inv 3 2 (by norm_num) [true, true, true] (by decide)
  show ghzEntangle 2 (hGate 0 (initState 3)) [true, true, true] = invSqrt2
  rw [h, if_neg (by decide), if_pos (by decide)]

/-- C1: For every input list of strings, the Von Neumann extractor scans the
list in order, emits output bit "0" for each element exactly equal to "01"
and output bit "1" for each element exactly equal to "10", emits nothing for
"00", "11" or any element whose length is not 2, never fails, and its output
is exactly the concatenation of these per-element contributions in input
order. -/
theorem c1_extractor_contributions :
    (∀ bits : List String,
      von_neumann_extractor bits = (bits.map vnContribution).flatten) ∧
    vnContribution "01" = ["0"] ∧ vnContribution "10" = ["1"] ∧
    vnContribution "00" = [] ∧ vnContribution "11" = [] ∧
    (∀ s : String, s.length ≠ 2 → vnContribution s = []) := by
  refine ⟨vn_eq_flatten, by decide, by decide, by decide, by decide, ?_⟩
  intro s hs
  have h01 : s ≠ "01" := by
    intro h
    apply hs
    rw [h]
    decide
  have h10 : s ≠ "10" := by
    intro h
    apply hs
    rw [h]
    decide
  unfold vnContribution
  rw [if_neg h01, if_neg h10]

/-- C1 witness: the contribution clauses evaluated at the length-3 string
"000" and the flatten equation at a concrete input list. -/
theorem c1_extractor_contributions_witness :
    vnContribution "000" = [] ∧
    von_neumann_extractor ["01", "10", "00"]
      = ((["01", "10", "00"] : List String).map vnContribution).flatten :=
  ⟨c1_extractor_contributions.2.2.2.2.2 "000" (by decide),
    c1_extractor_contributions.1 ["01", "10", "00"]⟩

/-- C2: For every method in hadamard, bell, ghz, nist and every qubit count
at least 1, generating with shots = 0 returns a successful Generation Result
with an empty Outcome Count Map (for nist: empty raw outcome list, hence
empty sub-maps) and entropy 0.0, not a failure. -/
theorem c2_zero_shots (draw : ℕ → String) (draw4 : ℕ → ℕ → String)
    (qubits : ℕ) (hq : 1 ≤ qubits) :
    (∃ r, hadamard_method draw qubits 0 = Except.ok r ∧
        r.counts = some [] ∧ r.entropy = 0) ∧
    (∃ r, bell_state_method draw 0 = Except.ok r ∧
        r.counts = some [] ∧ r.entropy = 0) ∧
    (∃ r, ghz_state_method draw qubits 0 = Except.ok r ∧
        r.counts = some [] ∧ r.entropy = 0) ∧
    (∃ r, nist_compliant_method draw4 0 = Except.ok r ∧
        r.raw_bits = some [] ∧ r.processed_bits = some [] ∧ r.entropy = 0) := by
  refine ⟨⟨_, rfl, rfl, ?_⟩, ⟨_, rfl, rfl, ?_⟩, ⟨_, rfl, rfl, ?_⟩,
    ⟨_, rfl, rfl, rfl, ?_⟩⟩
  · exact calculate_entropy_nil
  · exact calculate_entropy_nil
  · exact calculate_entropy_nil
  · exact calculate_bit_entropy_nil

/-- C2 witness: the zero-shot statement instantiated at one qubit with a
fixed backend draw. -/
theorem c2_zero_shots_witness :
    ∃ r, hadamard_method (fun _ => "0") 1 0 = Except.ok r ∧
      r.counts = some [] ∧ r.entropy = 0 :=
  (c2_zero_shots (fun _ => "0") (fun _ _ => "00") 1 (by decide)).1

/-- C3 counterexample: a successful NIST-method invocation returns a result
with no `random_bits` key (the field is `none`) even though nonempty
flattened outcome strings exist -- they are stored under `raw_bits` --
refuting the claim that every successful Generation Result carries the
flattened outcome list under the key `random_bits`. -/
theorem c3_nist_random_bits_missing :
    ∃ r, nist_compliant_method (fun _ _ => "00") 4 = Except.ok r ∧
      r.raw_bits = some ["00", "00", "00", "00"] ∧ r.random_bits = none :=
  ⟨_, rfl, rfl, rfl⟩

/-- C3 (amended): every successful generation result carries the method name
and a scalar entropy value; the hadamard, bell and ghz methods carry the
flattened per-shot outcome list under the key `random_bits`; the NIST method
instead carries it under the key `raw_bits` (it has no `random_bits` key)
and additionally carries the debiased bits under the key `processed_bits`. -/
theorem c3_result_fields (draw : ℕ → String) (draw4 : ℕ → ℕ → String)
    (qubits shots : ℕ) :
    (∃ r, hadamard_method draw qubits shots = Except.ok r ∧
        r.method = "Hadamard" ∧
        r.random_bits = some (flattenCounts (sampleCounts draw shots)) ∧
        r.entropy = calculate_entropy (sampleCounts draw shots)) ∧
    (∃ r, bell_state_method draw shots = Except.ok r ∧
        r.method = "Bell_State" ∧
        r.random_bits = some (flattenCounts (sampleCounts draw shots)) ∧
        r.entropy = calculate_entropy (sampleCounts draw shots)) ∧
    (∃ r, ghz_state_method draw qubits shots = Except.ok r ∧
        r.method = "GHZ_State" ∧
        r.random_bits = some (flattenCounts (sampleCounts draw shots)) ∧
        r.entropy = calculate_entropy (sampleCounts draw shots)) ∧
    (∃ r, nist_compliant_method draw4 shots = Except.ok r ∧
        r.method = "NIST_Compliant" ∧
        r.random_bits = none ∧
        r.raw_bits = some (nistRawBits draw4 shots) ∧
        r.processed_bits = some (von_neumann_extractor (nistRawBits draw4 shots)) ∧
        r.entropy = calculate_bit_entropy
          (von_neumann_extractor (nistRawBits draw4 shots))) :=
  ⟨⟨_, rfl, rfl, rfl, rfl⟩, ⟨_, rfl, rfl, rfl, rfl⟩, ⟨_, rfl, rfl, rfl, rfl⟩,
    ⟨_, rfl, rfl, rfl, rfl, rfl, rfl⟩⟩

/-- C4: `_calculate_entropy` on an outcome-count map whose counts sum to T
returns exactly 0.0 when T = 0, and −Σ (count/T)·log2(count/T) over exactly
the entries with positive count when T > 0. -/
theorem c4_entropy_formula (counts : List (String × ℕ)) :
    ((counts.map Prod.snd).sum = 0 → calculate_entropy counts = 0) ∧
    (0 < (counts.map Prod.snd).sum →
      calculate_entropy counts =
        -(((counts.filter (fun e => 0 < e.2)).map
            (fun (e : String × ℕ) =>
              ((e.2 : ℝ) / (((counts.map Prod.snd).sum : ℕ) : ℝ))
                * log2 ((e.2 : ℝ) / (((counts.map Prod.snd).sum : ℕ) : ℝ)))).sum)) := by
  constructor
  · intro h
    rw [calculate_entropy_eq, if_pos h]
  · intro h
    exact entropy_entry_formula counts h.ne'

/-- C4 witness: the formula evaluated on the two-outcome map with one count
each. -/
theorem c4_entropy_formula_witness :
    calculate_entropy ([("0", 1), ("1", 1)] : List (String × ℕ)) =
      -(((([("0", 1), ("1", 1)] : List (String × ℕ)).filter
            (fun e => 0 < e.2)).map
          (fun (e : String × ℕ) =>
            ((e.2 : ℝ)
                / (((([("0", 1), ("1", 1)] : List (String × ℕ)).map
                    Prod.snd).sum : ℕ) : ℝ))
              * log2 ((e.2 : ℝ)
                / (((([("0", 1), ("1", 1)] : List (String × ℕ)).map
                    Prod.snd).sum : ℕ) : ℝ)))).sum) :=
  (c4_entropy_formula [("0", 1), ("1", 1)]).2 (by decide)

/-- C5: for every outcome-count map (distinct keys) with exactly k entries of
nonzero count, the Shannon entropy lies in [0, log2 k], and it is exactly 0
when k = 1. -/
theorem c5_entropy_bounds (counts : List (String × ℕ))
    (_hnodup : (counts.map Prod.fst).Nodup) :
    0 ≤ calculate_entropy counts ∧
    calculate_entropy counts
      ≤ log2 (((counts.filter (fun e => 0 < e.2)).length : ℝ)) ∧
    ((counts.filter (fun e => 0 < e.2)).length = 1 →
      calculate_entropy counts = 0) := by
  rw [calculate_entropy_eq]
  by_cases h : (counts.map Prod.snd).sum = 0
  · rw [if_pos h]
    have hnil := filter_pos_nil_of_sum_eq_zero counts h
    rw [hnil]
    refine ⟨le_refl 0, ?_, fun _ => rfl⟩
    simp [log2]
  · rw [if_neg h]
    refine ⟨shannonSum_nonneg _, ?_, ?_⟩
    · have hle := shannonSum_le_log2_length (counts.map Prod.snd) h
      rwa [filter_pos_snd_length] at hle
    · intro h1
      apply shannonSum_single
      rw [filter_pos_snd_length]
      exact h1

/-- C5 witness: the bounds at the two-outcome map with one count each. -/
theorem c5_entropy_bounds_witness :
    0 ≤ calculate_entropy ([("00", 1), ("11", 1)] : List (String × ℕ)) ∧
    calculate_entropy ([("00", 1), ("11", 1)] : List (String × ℕ))
      ≤ log2 ((((([("00", 1), ("11", 1)] : List (String × ℕ))).filter
          (fun e => 0 < e.2)).length : ℝ)) ∧
    (((([("00", 1), ("11", 1)] : List (String × ℕ))).filter
        (fun e => 0 < e.2)).length = 1 →
      calculate_entropy ([("00", 1), ("11", 1)] : List (String × ℕ)) = 0) :=
  c5_entropy_bounds [("00", 1), ("11", 1)] (by decide)

/-- C6: when "01" and "10" occur equally often in the input, the extractor
output contains exactly as many "0" bits as "1" bits, and the elements equal
to "00" or "11" contribute nothing (removing them all leaves the output
unchanged). -/
theorem c6_extractor_balanced (bits : List String)
    (h : bits.count "01" = bits.count "10") :
    (von_neumann_extractor bits).count "0"
        = (von_neumann_extractor bits).count "1" ∧
    von_neumann_extractor (bits.filter (fun s => !(s == "00" || s == "11")))
      = von_neumann_extractor bits := by
  refine ⟨?_, vn_drop_balanced bits⟩
  rw [(vn_counts bits).1, (vn_counts bits).2, h]

/-- C6 witness: the balance statement at a concrete balanced input. -/
theorem c6_extractor_balanced_witness :
    (von_neumann_extractor ["01", "10", "00"]).count "0"
        = (von_neumann_extractor ["01", "10", "00"]).count "1" ∧
    von_neumann_extractor
        ((["01", "10", "00"] : List String).filter
          (fun s => !(s == "00" || s == "11")))
      = von_neumann_extractor ["01", "10", "00"] :=
  c6_extractor_balanced ["01", "10", "00"] (by decide)

/-- C7: in the idealized noiseless simulation, every outcome of the Bell
circuit with positive Born probability reads "00" or "11", and every outcome
of the GHZ circuit on n ≥ 1 qubits with positive Born probability is the
all-zeros or the all-ones n-bit string. -/
theorem c7_entangled_outcomes :
    (∀ y : List Bool, y.length = 2 → 0 < bornProb bell_circuit y →
        outcomeString y = "00" ∨ outcomeString y = "11") ∧
    (∀ (n : ℕ) (x : List Bool), 1 ≤ n → x.length = n →
        0 < bornProb (ghz_circuit n) x →
        outcomeString x = String.mk (List.replicate n '0') ∨
        outcomeString x = String.mk (List.replicate n '1')) := by
  have hghz : ∀ (n : ℕ) (x : List Bool), 1 ≤ n → x.length = n →
      0 < bornProb (ghz_circuit n) x →
      outcomeString x = String.mk (List.replicate n '0') ∨
      outcomeString x = String.mk (List.replicate n '1') := by
    intro n x hn hx hp
    have hne := (bornProb_pos_iff _ _).mp hp
    rcases ghz_outcome_support n hn x hx hne with rfl | rfl
    · exact Or.inl (by rw [outcomeString_replicate]; rfl)
    · exact Or.inr (by rw [outcomeString_replicate]; rfl)
  refine ⟨?_, hghz⟩
  intro y hy hp
  have hbell : bornProb (ghz_circuit 2) y = bornProb bell_circuit y := rfl
  rcases hghz 2 y (by norm_num) hy (by rw [hbell]; exact hp) with h | h
  · exact Or.inl (by rw [h]; decide)
  · exact Or.inr (by rw [h]; decide)

/-- C7 witness: the all-ones outcome of the 3-qubit GHZ circuit, whose
amplitude is 1/√2, hence has positive Born probability. -/
theorem c7_entangled_outcomes_witness :
    outcomeString [true, true, true] = String.mk (List.replicate 3 '0') ∨
    outcomeString [true, true, true] = String.mk (List.replicate 3 '1') :=
  c7_entangled_outcomes.2 3 [true, true, true] (by norm_num) (by decide)
    ((bornProb_pos_iff _ _).mpr (by rw [ghz3_ttt]; exact invSqrt2_ne_zero))

/-- C8: a method all of whose benchmark repetitions fail is omitted entirely
from the benchmark output, and every method that does appear has
successful_runs at least 1. -/
theorem c8_benchmark_policy (runOutcome : String → ℕ → Option (ℝ × ℝ))
    (runs : ℕ) (m : String) :
    ((∀ i, i < runs → runOutcome m i = none) →
      ∀ stats, (m, stats) ∉ benchmark_methods runOutcome runs) ∧
    (∀ m' stats, (m', stats) ∈ benchmark_methods runOutcome runs →
      1 ≤ stats.successful_runs) := by
  constructor
  · intro hall stats hmem
    unfold benchmark_methods at hmem
    rcases List.mem_filterMap.mp hmem with ⟨m', hm', hf⟩
    simp only [] at hf
    by_cases ht : ((List.range runs).filterMap (runOutcome m')).map Prod.fst = []
    · rw [if_pos ht] at hf
      exact Option.noConfusion hf
    · rw [if_neg ht] at hf
      have hpair := Option.some.inj hf
      have hmm : m' = m := congrArg Prod.fst hpair
      apply ht
      have hsucc : (List.range runs).filterMap (runOutcome m') = [] := by
        apply List.filterMap_eq_nil_iff.mpr
        intro i hi
        rw [hmm]
        exact hall i (List.mem_range.mp hi)
      rw [hsucc]
      rfl
  · intro m' stats hmem
    unfold benchmark_methods at hmem
    rcases List.mem_filterMap.mp hmem with ⟨m'', hm'', hf⟩
    simp only [] at hf
    by_cases ht : ((List.range runs).filterMap (runOutcome m'')).map Prod.fst = []
    · rw [if_pos ht] at hf
      exact Option.noConfusion hf
    · rw [if_neg ht] at hf
      have hpair := Option.some.inj hf
      have hlen := congrArg (fun p => p.2.successful_runs) hpair
      simp only [] at hlen
      rw [← hlen]
      have hpos := List.length_pos.mpr ht
      omega

/-- C8 witness: with every run failing, the bell method (with any statistics
record) is absent from the benchmark output of 2 runs. -/
theorem c8_benchmark_policy_witness :
    ("bell", BenchStats.mk 0 0 0 0 0 0 0)
      ∉ benchmark_methods (fun _ _ => none) 2 :=
  (c8_benchmark_policy (fun _ _ => none) 2 "bell").1 (fun _ _ => rfl)
    (BenchStats.mk 0 0 0 0 0 0 0)

/-- C9: on input whose strings contain only the characters '0' and '1', the
bit-sequence entropy equals the outcome-map Shannon entropy of the
'0'/'1'-symbol counts of the concatenated stream, and it returns 0.0 on the
empty input list. -/
theorem c9_bit_entropy_stream (bits : List String)
    (h : ∀ s ∈ bits, ∀ ch ∈ s.data, ch = '0' ∨ ch = '1') :
    calculate_bit_entropy bits =
      calculate_entropy
        [("0", (bits.map String.data).flatten.count '0'),
          ("1", (bits.map String.data).flatten.count '1')] ∧
    calculate_bit_entropy [] = 0 := by
  refine ⟨?_, calculate_bit_entropy_nil⟩
  rw [calculate_bit_entropy_eq bits h, calculate_entropy_eq]
  have hmap : (([("0", (bits.map String.data).flatten.count '0'),
      ("1", (bits.map String.data).flatten.count '1')] :
        List (String × ℕ)).map Prod.snd)
      = [(bits.map String.data).flatten.count '0',
          (bits.map String.data).flatten.count '1'] := rfl
  rw [hmap]
  by_cases h0 : ([(bits.map String.data).flatten.count '0',
      (bits.map String.data).flatten.count '1'] : List ℕ).sum = 0
  · rw [if_pos h0]
    exact shannonSum_of_sum_eq_zero _ h0
  · rw [if_neg h0]

/-- C9 witness: the stream equality at a concrete binary input. -/
theorem c9_bit_entropy_stream_witness :
    calculate_bit_entropy ["01", "10"] =
      calculate_entropy
        [("0", ((["01", "10"] : List String).map String.data).flatten.count '0'),
          ("1", ((["01", "10"] : List String).map String.data).flatten.count '1')] ∧
    calculate_bit_entropy [] = 0 :=
  c9_bit_entropy_stream ["01", "10"] (by decide)

/-- C10: on input whose strings contain only the characters '0' and '1', the
bit-sequence entropy lies in the closed interval [0, 1]. -/
theorem c10_bit_entropy_range (bits : List String)
    (h : ∀ s ∈ bits, ∀ ch ∈ s.data, ch = '0' ∨ ch = '1') :
    0 ≤ calculate_bit_entropy bits ∧ calculate_bit_entropy bits ≤ 1 := by
  rw [calculate_bit_entropy_eq bits h]
  exact ⟨shannonSum_nonneg _, shannonSum_pair_le_one _ _⟩

/-- C10 witness: the range statement at a concrete binary input. -/
theorem c10_bit_entropy_range_witness :
    0 ≤ calculate_bit_entropy ["0", "1"] ∧ calculate_bit_entropy ["0", "1"] ≤ 1 :=
  c10_bit_entropy_range ["0", "1"] (by decide)
